import Mathlib

/-!
Shallow embedding of the chess_db PGN-to-Polyglot converter
(src/parser/parser.cpp, src/parser/book.cpp) and proofs about it.

Machine integers are modelled as `Nat` with explicit `% 2 ^ w` at the
points where the C code truncates (uint16 weight assignment, uint32
learn construction).  `std::vector<PolyEntry>` is a `List PolyEntry`.
`std::sort` is modelled by `List.mergeSort`: the C comparators are
strict weak orderings and `std::sort`'s order among tie elements is
unspecified, so a stable merge sort is one admissible execution; every
theorem below that depends on sorting uses only properties (sortedness
with respect to the comparator, permutation) that hold for every
admissible `std::sort` execution, and every counterexample uses inputs
on which tie order is irrelevant or already sorted.
-/

namespace ChessDB

/-- The 16-byte Polyglot book entry, `struct PolyEntry` of parser.cpp:
`key` is uint64, `move` uint16, `weight` uint16, `learn` uint32. -/
structure PolyEntry where
  key : Nat
  move : Nat
  weight : Nat
  learn : Nat
deriving DecidableEq

/-- Embeds `SizeOfPolyEntry` of parser.cpp: 8 + 2 + 2 + 4 bytes. -/
def SizeOfPolyEntry : Nat := 16

/-- Boolean form of `operator<(const PolyEntry&, const PolyEntry&)`
(parser.cpp line 73): comparison by `key` only.  Used as the `le`
relation of the global `std::sort` in `process_pgn` (line 657); the
boolean is the non-strict closure, which is what a stable merge sort
needs to model a `std::sort` against the strict `<`. -/
def keyLeB (a b : PolyEntry) : Bool := decide (a.key ≤ b.key)

/-- The per-move occurrence count `moves[move]` that
`sort_by_frequency` (parser.cpp lines 214-217) builds with a
`std::map<PMove, int>` over the run. -/
def countMove (run : List PolyEntry) (m : Nat) : Nat :=
  run.countP (fun e => decide (e.move = m))

/-- Boolean form of the lambda comparator of `sort_by_frequency`
(parser.cpp lines 223-227): `a.weight > b.weight || (a.weight ==
b.weight && a.move > b.move)`.  As above we use the non-strict closure
(weight descending, then move descending) for the merge sort. -/
def freqLeB (a b : PolyEntry) : Bool :=
  decide (b.weight < a.weight ∨ (a.weight = b.weight ∧ b.move ≤ a.move))

/-- Embeds `sort_by_frequency(kTable, start, end)` of parser.cpp (lines
212-228) acting on the run `kTable[start..end)` as a list: first every
entry's `weight` is overwritten with the occurrence count of its move
in the run (the assignment `kTable[i].weight = moves[kTable[i].move]`
stores an `int` into a `uint16_t`, hence the `% 2 ^ 16`), then the run
is sorted with the weight-descending/move-descending comparator. -/
def sort_by_frequency (run : List PolyEntry) : List PolyEntry :=
  (run.map (fun e => { e with weight := countMove run e.move % 2 ^ 16 })).mergeSort freqLeB

/-- Decomposition of an entry table into its maximal runs of adjacent
equal keys.  This is the run structure that the aggregation loop of
`process_pgn` (parser.cpp lines 659-668) walks: the loop body fires
exactly at indices where `kTable[idx].key != kTable[idx-1].key`,
i.e. at the boundaries between these runs. -/
def chunkRuns : List PolyEntry → List (List PolyEntry)
  | [] => []
  | e :: es =>
    match chunkRuns es with
    | [] => [[e]]
    | [] :: rs => [e] :: [] :: rs
    | (f :: r) :: rs =>
      if e.key = f.key then (e :: f :: r) :: rs else [e] :: (f :: r) :: rs

/-- The aggregation loop of `process_pgn` (parser.cpp lines 659-668)
expressed on the run decomposition: every run that is *followed by a
key change* (i.e. every run except the last) is handed to
`sort_by_frequency` when its length exceeds 2 (`idx - last > 2`); the
run ending at the end of the table is never processed, because the
loop only fires at key-change indices and there is no flush after the
loop. -/
def procRuns : List (List PolyEntry) → List (List PolyEntry)
  | [] => []
  | [r] => [r]
  | r :: r' :: rs =>
    (if 2 < r.length then sort_by_frequency r else r) :: procRuns (r' :: rs)

/-- The whole sorting/reweighting stage of `process_pgn` (lines
657-668) applied after the global key sort: the table with each
interior long run frequency-reweighted and reordered. -/
def aggregate (t : List PolyEntry) : List PolyEntry :=
  (procRuns (chunkRuns t)).flatten

/-- The loop body of `write_poly_file` (parser.cpp lines 197-205):
an entry is written iff `e.key != prev->key || e.move != prev->move ||
full`, and `prev` advances only on a write. -/
def writeLoop (full : Bool) (prev : PolyEntry) : List PolyEntry → List PolyEntry
  | [] => []
  | e :: rest =>
    if e.key ≠ prev.key ∨ e.move ≠ prev.move ∨ full = true then
      e :: writeLoop full e rest
    else
      writeLoop full prev rest

/-- Embeds `write_poly_file(kTable, fname, full)` of parser.cpp (lines
189-210), as the list of records it writes: `prev` is initialised to
`&kTable[0]`, i.e. to the *first element itself*, and then every
element of the table (including the first) is compared against
`prev`.  (On an empty table the C code dereferences `kTable[0]` but
the loop writes nothing; we return the empty list.) -/
def write_poly_file (t : List PolyEntry) (full : Bool) : List PolyEntry :=
  match t with
  | [] => []
  | e0 :: _ => writeLoop full e0 t

/-- The back half of `process_pgn` (parser.cpp lines 651-677): global
sort by key, per-run frequency reweighting, then the deduplicating
write.  The result is the record sequence of the written book file. -/
def process (t : List PolyEntry) (full : Bool) : List PolyEntry :=
  write_poly_file (aggregate (t.mergeSort keyLeB)) full

/-- The `learn` field computed in `parse_game` (parser.cpp lines
267-269): `((uint32_t(result) & 3) << 31) | ((uintptr_t(data) >> 3) &
0x3FFFFFFF)`.  `result` is an `int` (it is `*(data-1) - '0'`, which
can be negative for a malformed result byte, hence `Int`);
`uint32_t(result) & 3` is `result.emod 4`; the shift by **31** is
performed in uint32, hence the `% 2 ^ 32`.  `addr` is the byte
position passed as `data` (the address of the newline that ended the
game; we take the mapping base as origin). -/
def learnField (result : Int) (addr : Nat) : Nat :=
  (((result.emod 4).toNat <<< 31) % 2 ^ 32) ||| ((addr >>> 3) % 2 ^ 30)

/-! ### Internal move representation and `to_polyglot`

`to_polyglot` (parser.cpp lines 230-245) converts the engine's
internal 16-bit `Move` into the Polyglot move word.  The engine's
`Move` type lives in `types.h`, which is not among the sources; its
layout is modelled below from the spec and from the facts the sources
presuppose about it. -/

/-- Modelled from the spec: the engine's internal `Move` layout
(`types.h`, absent from the sources).  Spec §6 fixes the square
numbering and the king-captures-rook castling convention, and the
comment of `to_polyglot` fixes the rest: bits 0-5 destination, bits
6-11 origin, bits 12-13 promotion piece minus knight, bits 14-15 the
special-move flags (NORMAL = 0, PROMOTION = 1, ENPASSANT = 2,
CASTLING = 3), with `promotion_type` ranging over KNIGHT = 2 ..
QUEEN = 5.  A normal move is `(from << 6) | to`. -/
def mkMove (f t : Nat) : Nat := (f <<< 6) + t

/-- Modelled from the spec: a promotion move of the engine's `Move`
type — PROMOTION flag `1 << 14`, promotion piece (`pt` = 2 for knight
.. 5 for queen) minus KNIGHT in bits 12-13, origin and destination as
in `mkMove`. -/
def mkPromotion (f t pt : Nat) : Nat :=
  (1 <<< 14) + ((pt - 2) <<< 12) + (f <<< 6) + t

/-- Modelled from the spec: a castling move of the engine's `Move`
type — CASTLING flag `3 << 14`, origin = king's square, destination =
the castling rook's square ("king captures own rook"). -/
def mkCastling (kf rt : Nat) : Nat := (3 <<< 14) + (kf <<< 6) + rt

/-- Modelled from the spec: an en-passant capture of the engine's
`Move` type — ENPASSANT flag `2 << 14`. -/
def mkEnPassant (f t : Nat) : Nat := (2 <<< 14) + (f <<< 6) + t

/-- Models `promotion_type(m)` of the engine (`types.h`, modelled):
`PieceType(((m >> 12) & 3) + KNIGHT)` with KNIGHT = 2. -/
def promotion_type (m : Nat) : Nat := ((m >>> 12) &&& 3) + 2

/-- Embeds `to_polyglot(Move m)` of parser.cpp (lines 230-245), translated
literally: `if (m & PROMOTION) return PMove((m & 0xFFF) |
((promotion_type(m) - 1) << 12)); return PMove(m & 0x3FFF);` with
`PROMOTION == 1 << 14`.  Note that the test `m & PROMOTION` is a bit
test, so it is also true for CASTLING moves (flag `3 << 14`). -/
def to_polyglot (m : Nat) : Nat :=
  if m &&& (1 <<< 14) ≠ 0 then (m &&& 0xFFF) ||| ((promotion_type m - 1) <<< 12)
  else m &&& 0x3FFF

/-! ### The game replayer `parse_game`

`parse_game` (parser.cpp lines 247-297) replays the zero-terminated
SAN tokens of one game against the chess engine.  The engine
primitives it calls (`Position::san_to_move`, `Position::do_move`,
`Position::do_null_move`, `Position::key`, from position.cpp /
position.h) are not among the sources, so the replayer is embedded
over an abstract engine interface; `parse_game`'s own control flow is
translated from the source. -/

/-- Modelled from the spec: the engine primitives consumed by
`parse_game` (`Position` of position.h/position.cpp, absent from the
sources).  `resolve pos s` models `san_to_move`: `none` is the
MOVE_NONE "not found" signal, `some none` is MOVE_NULL, `some (some
m)` a resolved move; per spec §4.E/§7 a resolution failure is counted
as one fixable error, so the replayer below bumps the counter by one
exactly when `resolve` returns `none`. -/
structure Engine (Pos : Type) where
  key : Pos → Nat
  doMove : Pos → Nat → Pos
  doNullMove : Pos → Pos
  resolve : Pos → List Nat → Option (Option Nat)

/-- One position update of the replayer: how `parse_game` advances the
position on one SAN token (null move applies `do_null_move`, a
resolved move applies `do_move`, a failed token leaves the position —
the game is abandoned there anyway). -/
def stepPos {Pos : Type} (E : Engine Pos) (pos : Pos) (s : List Nat) : Pos :=
  match E.resolve pos s with
  | none => pos
  | some none => E.doNullMove pos
  | some (some m) => E.doMove pos m

/-- All SAN tokens of the list resolve (no MOVE_NONE) when replayed in
order from `pos`. -/
def ResolvesAll {Pos : Type} (E : Engine Pos) : Pos → List (List Nat) → Prop
  | _, [] => True
  | pos, s :: rest => E.resolve pos s ≠ none ∧ ResolvesAll E (stepPos E pos s) rest

/-- The loop of `parse_game` (parser.cpp lines 270-295) on the token
list of one game: returns the entry buffer, the fixable-error counter
and whether the game ran to completion.  On MOVE_NONE the game is
abandoned on the spot (`return cur;`), leaving the buffer as it is;
on MOVE_NULL only the position advances; otherwise
`kTable.push_back({pos.key(), to_polyglot(move), 1, learn})` and the
move is played. -/
def parse_game {Pos : Type} (E : Engine Pos) (learn : Nat) :
    List (List Nat) → Pos → List PolyEntry → Nat → List PolyEntry × Nat × Bool
  | [], _, acc, fixed => (acc, fixed, true)
  | s :: rest, pos, acc, fixed =>
    match E.resolve pos s with
    | none => (acc, fixed + 1, false)
    | some none => parse_game E learn rest (E.doNullMove pos) acc fixed
    | some (some m) =>
        parse_game E learn rest (E.doMove pos m)
          (acc ++ [⟨E.key pos, to_polyglot m, 1, learn⟩]) fixed

/-! ### The pushdown PGN parser `parse_pgn`

Embedding of the table-driven parser (parser.cpp lines 83-102,
299-452 and the tables built by `Parser::init`, lines 471-622).  The
input is the mapped byte range as a `List Nat`; reads beyond the range
(the FEN lookahead of OPEN_TAG and the peek of CASTLE_OR_RESULT read
up to `data + 5`) return 0, like the C code reading unspecified bytes
past the buffer.  The fixed-size C buffers (`Step* stateStack[16]`,
`char fen[256]`, `char moves[8192]`) are modelled as unbounded lists
— the C code contains *no* bounds check on any of them — and the
machine records the push high-water mark `maxStack` so that theorems
can talk about the 16-frame capacity.  `*stateSp++` on a full stack
and `*(--stateSp)` on an empty stack would be out-of-bounds accesses
in C; the model keeps pushing (tracking the depth) and flags an
underflow as a distinguished outcome, which is then proved
unreachable. -/

/-- Embeds `enum Token` of parser.cpp (line 83). -/
inductive Tok where
  | T_NONE | T_SPACES | T_RESULT | T_MINUS | T_DOT | T_QUOTES | T_DOLLAR
  | T_LEFT_BRACKET | T_RIGHT_BRACKET | T_LEFT_BRACE | T_RIGHT_BRACE
  | T_LEFT_PARENTHESIS | T_RIGHT_PARENTHESIS | T_ZERO | T_DIGIT | T_MOVE_HEAD
deriving DecidableEq

/-- Embeds `enum State` of parser.cpp (line 89); NAG abbreviates
NUMERIC_ANNOTATION_GLYPH. -/
inductive PState where
  | HEADER | TAG | FEN_TAG | BRACE_COMMENT | VARIATION | NAG
  | NEXT_MOVE | MOVE_NUMBER | NEXT_SAN | READ_SAN | RESULT
deriving DecidableEq

/-- Embeds `enum Step` of parser.cpp (line 94). -/
inductive PStep where
  | FAIL | CONTINUE | OPEN_TAG | OPEN_BRACE_COMMENT | READ_FEN | CLOSE_FEN_TAG
  | OPEN_VARIATION | START_NAG | POP_STATE | START_MOVE_NUMBER | START_NEXT_SAN
  | CASTLE_OR_RESULT | START_READ_SAN | READ_MOVE_CHAR | END_MOVE | START_RESULT
  | END_GAME | TAG_IN_BRACE | MISSING_RESULT
deriving DecidableEq

/-- The 256-entry classifier `ToToken` filled by `Parser::init`
(parser.cpp lines 477-501): whitespace and the trailing marks `!`,
`?`, `+`, `#` are T_SPACES; `/` and `*` are T_RESULT; `0` is T_ZERO,
`1`-`9` T_DIGIT; `a`-`h`, `N`, `B`, `R`, `Q`, `K`, `O`, `o` are
T_MOVE_HEAD; everything else (a zero-initialised static array) is
T_NONE. -/
def ToToken (b : Nat) : Tok :=
  if b = 10 ∨ b = 13 ∨ b = 32 ∨ b = 9 ∨ b = 33 ∨ b = 63 ∨ b = 43 ∨ b = 35 then .T_SPACES
  else if b = 47 ∨ b = 42 then .T_RESULT
  else if b = 45 then .T_MINUS
  else if b = 46 then .T_DOT
  else if b = 34 then .T_QUOTES
  else if b = 36 then .T_DOLLAR
  else if b = 91 then .T_LEFT_BRACKET
  else if b = 93 then .T_RIGHT_BRACKET
  else if b = 123 then .T_LEFT_BRACE
  else if b = 125 then .T_RIGHT_BRACE
  else if b = 40 then .T_LEFT_PARENTHESIS
  else if b = 41 then .T_RIGHT_PARENTHESIS
  else if b = 48 then .T_ZERO
  else if 49 ≤ b ∧ b ≤ 57 then .T_DIGIT
  else if (97 ≤ b ∧ b ≤ 104) ∨ b = 78 ∨ b = 66 ∨ b = 82 ∨ b = 81 ∨ b = 75 ∨ b = 79 ∨ b = 111
    then .T_MOVE_HEAD
  else .T_NONE

/-- The transition table `ToStep[state][token]` filled by
`Parser::init` (parser.cpp lines 503-621).  `ToStep` is a
zero-initialised static array and `FAIL = 0`, so every entry `init`
does not set is FAIL; this matters only for MOVE_NUMBER, the one row
that is not first bulk-filled by a loop. -/
def ToStep : PState → Tok → PStep
  | .HEADER, .T_LEFT_BRACKET => .OPEN_TAG
  | .HEADER, .T_LEFT_BRACE => .OPEN_BRACE_COMMENT
  | .HEADER, .T_DIGIT => .START_MOVE_NUMBER
  | .HEADER, .T_ZERO => .START_RESULT
  | .HEADER, .T_RESULT => .START_RESULT
  | .HEADER, _ => .CONTINUE
  | .TAG, .T_RIGHT_BRACKET => .POP_STATE
  | .TAG, _ => .CONTINUE
  | .FEN_TAG, .T_QUOTES => .CLOSE_FEN_TAG
  | .FEN_TAG, _ => .READ_FEN
  | .BRACE_COMMENT, .T_RIGHT_BRACE => .POP_STATE
  | .BRACE_COMMENT, .T_LEFT_BRACKET => .TAG_IN_BRACE
  | .BRACE_COMMENT, _ => .CONTINUE
  | .VARIATION, .T_RIGHT_PARENTHESIS => .POP_STATE
  | .VARIATION, .T_LEFT_PARENTHESIS => .OPEN_VARIATION
  | .VARIATION, .T_LEFT_BRACE => .OPEN_BRACE_COMMENT
  | .VARIATION, _ => .CONTINUE
  | .NAG, .T_ZERO => .CONTINUE
  | .NAG, .T_DIGIT => .CONTINUE
  | .NAG, _ => .POP_STATE
  | .NEXT_MOVE, .T_LEFT_PARENTHESIS => .OPEN_VARIATION
  | .NEXT_MOVE, .T_LEFT_BRACE => .OPEN_BRACE_COMMENT
  | .NEXT_MOVE, .T_LEFT_BRACKET => .MISSING_RESULT
  | .NEXT_MOVE, .T_DOLLAR => .START_NAG
  | .NEXT_MOVE, .T_RESULT => .START_RESULT
  | .NEXT_MOVE, .T_ZERO => .START_RESULT
  | .NEXT_MOVE, .T_DOT => .FAIL
  | .NEXT_MOVE, .T_MOVE_HEAD => .FAIL
  | .NEXT_MOVE, .T_MINUS => .FAIL
  | .NEXT_MOVE, .T_DIGIT => .START_MOVE_NUMBER
  | .NEXT_MOVE, _ => .CONTINUE
  | .MOVE_NUMBER, .T_ZERO => .CONTINUE
  | .MOVE_NUMBER, .T_DIGIT => .CONTINUE
  | .MOVE_NUMBER, .T_RESULT => .START_RESULT
  | .MOVE_NUMBER, .T_MINUS => .START_RESULT
  | .MOVE_NUMBER, .T_SPACES => .START_NEXT_SAN
  | .MOVE_NUMBER, .T_DOT => .START_NEXT_SAN
  | .MOVE_NUMBER, _ => .FAIL
  | .NEXT_SAN, .T_LEFT_PARENTHESIS => .OPEN_VARIATION
  | .NEXT_SAN, .T_LEFT_BRACE => .OPEN_BRACE_COMMENT
  | .NEXT_SAN, .T_LEFT_BRACKET => .MISSING_RESULT
  | .NEXT_SAN, .T_DOLLAR => .START_NAG
  | .NEXT_SAN, .T_RESULT => .START_RESULT
  | .NEXT_SAN, .T_ZERO => .CASTLE_OR_RESULT
  | .NEXT_SAN, .T_DOT => .CONTINUE
  | .NEXT_SAN, .T_DIGIT => .START_MOVE_NUMBER
  | .NEXT_SAN, .T_MOVE_HEAD => .START_READ_SAN
  | .NEXT_SAN, .T_MINUS => .START_READ_SAN
  | .NEXT_SAN, _ => .CONTINUE
  | .READ_SAN, .T_SPACES => .END_MOVE
  | .READ_SAN, .T_LEFT_BRACE => .OPEN_BRACE_COMMENT
  | .READ_SAN, _ => .READ_MOVE_CHAR
  | .RESULT, .T_SPACES => .END_GAME
  | .RESULT, _ => .CONTINUE

/-- One game record as flushed by END_GAME / MISSING_RESULT /
TAG_IN_BRACE / the end-of-input flush: the FEN buffer, the finished
zero-terminated SAN tokens, any unterminated tail of the san buffer,
the byte position passed as `data` to `parse_game`, and the byte at
`data - 1` (from which `parse_game` derives the result code). -/
structure PGame where
  fen : List Nat
  sans : List (List Nat)
  tail : List Nat
  offset : Nat
  prevByte : Nat
deriving DecidableEq

/-- The scratch state of `parse_pgn` (parser.cpp lines 301-310):
current state, state stack (top = head), FEN buffer, finished SAN
tokens plus the unterminated tail of the san buffer, side to move
(`stm`, true = WHITE), the flushed games, the move counter, and the
high-water mark of the stack depth. -/
structure PCfg where
  state : PState
  stack : List PState
  fen : List Nat
  sans : List (List Nat)
  cur : List Nat
  stm : Bool
  games : List PGame
  moveCnt : Nat
  maxStack : Nat
deriving DecidableEq

/-- Embeds the push `*stateSp++ = state` (with high-water tracking). -/
def pushSt (c : PCfg) (v : PState) : PCfg :=
  { c with stack := v :: c.stack,
           maxStack := max c.maxStack (c.stack.length + 1) }

/-- Byte access into the mapped range: `*(base + i)`, with reads past
the end of the range returning 0. -/
def byteAt (input : List Nat) (i : Nat) : Nat := input.getD i 0

/-- Does the byte list contain `" b "` (0x20 'b' 0x20) as a contiguous
substring?  Models `strstr(fen, " b ")` in CLOSE_FEN_TAG. -/
def hasSpaceBSpace : List Nat → Bool
  | 32 :: 98 :: 32 :: _ => true
  | _ :: rest => hasSpaceBSpace rest
  | [] => false

/-- Does `"[Event "` start at the current byte?  Models
`strncmp(data, "[Event ", 7)` in TAG_IN_BRACE. -/
def eventAt (input : List Nat) (i : Nat) : Bool :=
  decide (byteAt input i = 91 ∧ byteAt input (i+1) = 69 ∧ byteAt input (i+2) = 118 ∧
    byteAt input (i+3) = 101 ∧ byteAt input (i+4) = 110 ∧ byteAt input (i+5) = 116 ∧
    byteAt input (i+6) = 32)

/-- Flush the pending game (the calls `parse_game(moves, end, kTable,
fen, fenEnd, fixed, data)` at END_GAME, TAG_IN_BRACE/MISSING_RESULT
and after the loop) and rewind the per-game buffers (`end = curMove =
moves; fenEnd = fen;`). -/
def flushGame (c : PCfg) (input : List Nat) (i : Nat) : PCfg :=
  { c with games := c.games ++
      [⟨c.fen, c.sans, c.cur, i, byteAt input (i - 1)⟩],
           sans := [], cur := [], fen := [],
           state := .HEADER, stm := true }

/-- Outcome of one parser step: `fail` is the FAIL transition
(`error(state, data)`, which prints and exits), `underflow` marks a
`*(--stateSp)` on an empty stack (an out-of-bounds read in the C
code; proved unreachable below).  `ok c adv` continues with `adv`
extra bytes consumed beyond the loop's own `++data` (OPEN_TAG's FEN
lookahead advances `data` up to 5 times). -/
inductive StepOut where
  | fail
  | underflow
  | ok (c : PCfg) (adv : Nat)
deriving DecidableEq

/-- The FEN-tag lookahead of OPEN_TAG (parser.cpp lines 325-332): the
`&&` chain checks bytes `i+1` .. `i+5` against `F`, `E`, `N`, space,
quote, executing one `++data` per successful link after the first;
it yields FEN_TAG and 5 consumed bytes on a full match, else TAG and
as many consumed bytes as there were successful links. -/
def openTagAdvance (input : List Nat) (i : Nat) : PState × Nat :=
  if byteAt input (i+1) ≠ 70 then (.TAG, 0)
  else if byteAt input (i+2) ≠ 69 then (.TAG, 1)
  else if byteAt input (i+3) ≠ 78 then (.TAG, 2)
  else if byteAt input (i+4) ≠ 32 then (.TAG, 3)
  else if byteAt input (i+5) ≠ 34 then (.TAG, 4)
  else (.FEN_TAG, 5)

/-- One iteration of the hot loop of `parse_pgn` (parser.cpp lines
312-438) at byte position `i`. -/
def pgnStep (input : List Nat) (i : Nat) (c : PCfg) : StepOut :=
  let b := byteAt input i
  match ToStep c.state (ToToken b) with
  | .FAIL => .fail
  | .CONTINUE => .ok c 0
  | .OPEN_TAG =>
      let c1 := pushSt c c.state
      let (st, adv) := openTagAdvance input i
      .ok { c1 with state := st } adv
  | .OPEN_BRACE_COMMENT => .ok { pushSt c c.state with state := .BRACE_COMMENT } 0
  | .READ_FEN => .ok { c with fen := c.fen ++ [b] } 0
  | .CLOSE_FEN_TAG =>
      .ok { c with state := .TAG,
                   stm := if hasSpaceBSpace c.fen then false else c.stm } 0
  | .OPEN_VARIATION => .ok { pushSt c c.state with state := .VARIATION } 0
  | .START_NAG => .ok { pushSt c c.state with state := .NAG } 0
  | .POP_STATE =>
      match c.stack with
      | [] => .underflow
      | s :: rest => .ok { c with state := s, stack := rest } 0
  | .START_MOVE_NUMBER => .ok { c with state := .MOVE_NUMBER } 0
  | .START_NEXT_SAN => .ok { c with state := .NEXT_SAN } 0
  | .CASTLE_OR_RESULT =>
      if byteAt input (i+2) ≠ 48 then .ok { c with state := .RESULT } 0
      else .ok { c with cur := c.cur ++ [b], state := .READ_SAN } 0
  | .START_READ_SAN => .ok { c with cur := c.cur ++ [b], state := .READ_SAN } 0
  | .READ_MOVE_CHAR => .ok { c with cur := c.cur ++ [b] } 0
  | .END_MOVE =>
      .ok { c with sans := c.sans ++ [c.cur], cur := [],
                   moveCnt := c.moveCnt + 1,
                   state := if c.stm then .NEXT_SAN else .NEXT_MOVE,
                   stm := !c.stm } 0
  | .START_RESULT => .ok { c with state := .RESULT } 0
  | .END_GAME =>
      if b ≠ 10 then .ok { c with state := .RESULT } 0
      else .ok (flushGame c input i) 0
  | .TAG_IN_BRACE =>
      if ¬ eventAt input i then .ok c 0
      else
        let c1 := flushGame c input i
        .ok { pushSt c1 c1.state with state := .TAG } 0
  | .MISSING_RESULT =>
      let c1 := flushGame c input i
      .ok { pushSt c1 c1.state with state := .TAG } 0

/-- Result of a whole parse: a fatal transition, the (unreachable)
stack underflow, or the final configuration. -/
inductive RunOut where
  | fail
  | underflow
  | done (c : PCfg)
deriving DecidableEq

/-- The loop `for (; data < eof; ++data)` of `parse_pgn`: step at
position `i`, then advance by `1 + adv`.  The recursion is driven by
a fuel argument so that concrete runs reduce in the kernel; since
every iteration advances `i` by at least one, `input.length` units of
fuel (as supplied by `parse_pgn` below) are always enough, so the
fuel-exhausted branch is unreachable from `parse_pgn`. -/
def pgnLoop (input : List Nat) : Nat → Nat → PCfg → RunOut
  | 0, _, c => .done c
  | fuel + 1, i, c =>
    if i < input.length then
      match pgnStep input i c with
      | .fail => .fail
      | .underflow => .underflow
      | .ok c' adv => pgnLoop input fuel (i + 1 + adv) c'
    else .done c

/-- The initial configuration of `parse_pgn` (parser.cpp lines
301-310): state HEADER, empty stack and buffers, white to move. -/
def initCfg : PCfg :=
  ⟨.HEADER, [], [], [], [], true, [], 0, 0⟩

/-- Embeds `parse_pgn(baseAddress, size, stats, kTable)` (parser.cpp lines
299-452): run the loop from the start and, at end of input, force the
accounting of a still-pending game (`if (state != ToStep[HEADER] &&
end - moves) parse_game(...)`, lines 443-447). -/
def parse_pgn (input : List Nat) : RunOut :=
  match pgnLoop input input.length 0 initCfg with
  | .fail => .fail
  | .underflow => .underflow
  | .done c =>
      if c.state ≠ .HEADER ∧ (c.sans ≠ [] ∨ c.cur ≠ []) then
        .done (flushGame c input input.length)
      else .done c

/-! ### The book prober `PolyglotBook::find_first` (book.cpp) -/

/-- Embeds `operator>>` of book.cpp (lines 41-48) for a `w`-byte big-endian
integer starting at byte `off` of the file: `n = T((n << 8) +
get())`, truncating to the width of `T` at every step. -/
def readBE (file : List Nat) (w off : Nat) : Nat :=
  (List.range w).foldl (fun n j => (n * 256 + file.getD (off + j) 0) % 2 ^ (8 * w)) 0

/-- The key of the `mid`-th 16-byte record, as `find_first` reads it
(the full entry is read; only the key is consulted). -/
def keyAt (file : List Nat) (i : Nat) : Nat :=
  readBE file 8 (SizeOfPolyEntry * i)

/-- The binary-search loop of `PolyglotBook::find_first` (book.cpp
lines 100-113): `while (low < high) { mid = (low + high) / 2; if (key
<= e.key) high = mid; else low = mid + 1; }`. -/
def findFirstLoop (file : List Nat) (key : Nat) : Nat → Nat → Nat → Nat
  | 0, low, _ => low
  | fuel + 1, low, high =>
    if low < high then
      let mid := (low + high) / 2
      if key ≤ keyAt file mid then findFirstLoop file key fuel low mid
      else findFirstLoop file key fuel (mid + 1) high
    else low

/-- Embeds `PolyglotBook::find_first(Key key)` of book.cpp (lines 91-118):
binary search over the `size / 16` records with `high` initialised to
`size / 16 - 1`, returning `low * SizeOfPolyEntry`.  The loop is
fuelled (the interval `high - low` shrinks every iteration, so
`size / 16` units are always enough and the fuel-exhausted branch is
unreachable from this wrapper). -/
def find_first (file : List Nat) (key : Nat) : Nat :=
  findFirstLoop file key (file.length / SizeOfPolyEntry) 0
    (file.length / SizeOfPolyEntry - 1) * SizeOfPolyEntry

/-! ### Auxiliary definitions used by the theorems -/

/-- The states whose row of `ToStep` contains a POP_STATE transition
(TAG, BRACE_COMMENT, VARIATION, NAG), together with FEN_TAG, which
hands its stack frame over to TAG via CLOSE_FEN_TAG without popping:
exactly the states that own a pending stack frame. -/
def poppable : PState → Bool
  | .TAG | .FEN_TAG | .BRACE_COMMENT | .VARIATION | .NAG => true
  | _ => false

/-- Well-formedness of the state stack: below every frame that names a
`poppable` state there is a further frame (so popping back into such a
state can never leave the parser without the frame it will pop next). -/
def stackOK : List PState → Prop
  | [] => True
  | v :: s => (poppable v = true → s ≠ []) ∧ stackOK s

/-- The parser invariant: in a `poppable` state the stack is nonempty,
and the stack itself is well-formed. -/
def PInv (c : PCfg) : Prop :=
  (poppable c.state = true → c.stack ≠ []) ∧ stackOK c.stack

/-- Projection used to state results about a finished parse: the push
high-water mark, or `none` if the run did not finish. -/
def runOutMaxStack : RunOut → Option Nat
  | .done c => some c.maxStack
  | _ => none

/-- The position after replaying a token list (the fold of `stepPos`). -/
def playAll {Pos : Type} (E : Engine Pos) (pos : Pos) (ts : List (List Nat)) : Pos :=
  ts.foldl (stepPos E) pos

/-- A tiny concrete engine over `Pos := Nat` used to witness the
replayer theorems: token `[101]` ("e") resolves to move 3, token
`[110]` ("n") to a null move, everything else fails to resolve. -/
def witEngine : Engine Nat where
  key := fun p => p
  doMove := fun p m => p + m + 1
  doNullMove := fun p => p + 100
  resolve := fun _ s => if s = [101] then some (some 3)
                        else if s = [110] then some none else none

/-! ### Lemmas about the aggregation pipeline -/

/-- The (weight descending, move descending) order guaranteed by the
comparator of `sort_by_frequency`, as a `Prop` relation: `a` before
`b` is admissible iff `(a.weight, a.move) ≥ (b.weight, b.move)`
lexicographically. -/
def wDesc (a b : PolyEntry) : Prop :=
  b.weight < a.weight ∨ (a.weight = b.weight ∧ b.move ≤ a.move)

/-- Key order as a `Prop` relation on entries. -/
def keyle (a b : PolyEntry) : Prop := a.key ≤ b.key

theorem freqLeB_trans (a b c : PolyEntry) (h1 : freqLeB a b = true)
    (h2 : freqLeB b c = true) : freqLeB a c = true := by
  simp only [freqLeB, decide_eq_true_eq] at h1 h2 ⊢
  omega

theorem freqLeB_total (a b : PolyEntry) : (freqLeB a b || freqLeB b a) = true := by
  simp only [freqLeB, Bool.or_eq_true, decide_eq_true_eq]
  omega

theorem keyLeB_trans (a b c : PolyEntry) (h1 : keyLeB a b = true)
    (h2 : keyLeB b c = true) : keyLeB a c = true := by
  simp only [keyLeB, decide_eq_true_eq] at h1 h2 ⊢
  omega

theorem keyLeB_total (a b : PolyEntry) : (keyLeB a b || keyLeB b a) = true := by
  simp only [keyLeB, Bool.or_eq_true, decide_eq_true_eq]
  omega

/-- Sorting by frequency permutes the reweighted run. -/
theorem sbf_perm (run : List PolyEntry) :
    (sort_by_frequency run).Perm
      (run.map (fun e => { e with weight := countMove run e.move % 2 ^ 16 })) :=
  List.mergeSort_perm _ _

/-- Sorting by frequency leaves the run in (weight descending, move
descending) order. -/
theorem sbf_sorted (run : List PolyEntry) :
    List.Pairwise wDesc (sort_by_frequency run) := by
  have h := List.sorted_mergeSort freqLeB_trans freqLeB_total
    (run.map (fun e => { e with weight := countMove run e.move % 2 ^ 16 }))
  exact h.imp (fun hab => by simpa [freqLeB, wDesc] using hab)

/-- Membership in a frequency-sorted run comes from the run, with the
key unchanged (only the weight is rewritten). -/
theorem sbf_mem_key {run : List PolyEntry} {e : PolyEntry}
    (he : e ∈ sort_by_frequency run) : ∃ e₀ ∈ run, e.key = e₀.key := by
  have hm := (sbf_perm run).mem_iff.mp he
  obtain ⟨e₀, he₀, rfl⟩ := List.mem_map.mp hm
  exact ⟨e₀, he₀, rfl⟩

theorem sbf_length (run : List PolyEntry) :
    (sort_by_frequency run).length = run.length := by
  simpa using (sbf_perm run).length_eq

/-- The run decomposition flattens back to the table. -/
theorem chunkRuns_flatten (t : List PolyEntry) : (chunkRuns t).flatten = t := by
  induction t with
  | nil => rfl
  | cons e es ih =>
    simp only [chunkRuns]
    cases h : chunkRuns es with
    | nil =>
        rw [h] at ih
        simp at ih
        simp [ih]
    | cons r rs =>
        rw [h] at ih
        cases r with
        | nil => simpa using ih
        | cons f r' =>
            have ih' : f :: (r' ++ rs.flatten) = es := by simpa using ih
            by_cases hk : e.key = f.key <;> simp [hk, ih']

/-- Runs of the decomposition are never empty. -/
theorem chunkRuns_ne_nil (t : List PolyEntry) : ∀ r ∈ chunkRuns t, r ≠ [] := by
  induction t with
  | nil => intro r hr; simp [chunkRuns] at hr
  | cons e es ih =>
    intro r hr
    simp only [chunkRuns] at hr
    cases h : chunkRuns es with
    | nil => rw [h] at hr; simp at hr; simp [hr]
    | cons r0 rs =>
        rw [h] at hr
        cases r0 with
        | nil => exact absurd rfl (ih [] (h ▸ List.mem_cons_self _ _))
        | cons f r' =>
            by_cases hk : e.key = f.key
            · simp [hk] at hr
              rcases hr with hr | hr
              · simp [hr]
              · exact ih _ (h ▸ List.mem_cons_of_mem _ hr)
            · simp [hk] at hr
              rcases hr with hr | hr | hr
              · simp [hr]
              · exact ih _ (h ▸ (hr ▸ List.mem_cons_self _ _))
              · exact ih _ (h ▸ List.mem_cons_of_mem _ hr)

/-- All entries of one run of the decomposition share one key. -/
theorem chunkRuns_const (t : List PolyEntry) :
    ∀ r ∈ chunkRuns t, ∀ x ∈ r, ∀ y ∈ r, x.key = y.key := by
  induction t with
  | nil => intro r hr; simp [chunkRuns] at hr
  | cons e es ih =>
    intro r hr
    simp only [chunkRuns] at hr
    cases h : chunkRuns es with
    | nil =>
        rw [h] at hr; simp at hr
        intro x hx y hy
        rw [hr] at hx hy
        simp at hx hy
        rw [hx, hy]
    | cons r0 rs =>
        rw [h] at hr
        cases r0 with
        | nil =>
            simp at hr
            rcases hr with hr | hr | hr
            · intro x hx y hy
              rw [hr] at hx hy; simp at hx hy; rw [hx, hy]
            · intro x hx; rw [hr] at hx; simp at hx
            · exact ih _ (h ▸ List.mem_cons_of_mem _ hr)
        | cons f r' =>
            by_cases hk : e.key = f.key
            · simp [hk] at hr
              rcases hr with hr | hr
              · have hfr : ∀ x ∈ f :: r', ∀ y ∈ f :: r', x.key = y.key :=
                  ih _ (h ▸ List.mem_cons_self _ _)
                intro x hx y hy
                rw [hr] at hx hy
                rcases List.mem_cons.mp hx with hx' | hx' <;>
                  rcases List.mem_cons.mp hy with hy' | hy'
                · rw [hx', hy']
                · rw [hx', hk]; exact hfr f (List.mem_cons_self _ _) y hy'
                · rw [hy', hk]; exact (hfr x hx' f (List.mem_cons_self _ _))
                · exact hfr x hx' y hy'
              · exact ih _ (h ▸ List.mem_cons_of_mem _ hr)
            · simp [hk] at hr
              rcases hr with hr | hr | hr
              · intro x hx y hy
                rw [hr] at hx hy; simp at hx hy; rw [hx, hy]
              · exact ih _ (h ▸ (hr ▸ List.mem_cons_self _ _))
              · exact ih _ (h ▸ List.mem_cons_of_mem _ hr)

/-- Processing the runs keeps the number of runs. -/
theorem procRuns_length (rs : List (List PolyEntry)) :
    (procRuns rs).length = rs.length := by
  induction rs with
  | nil => rfl
  | cons r rs ih =>
    cases rs with
    | nil => rfl
    | cons r' rest => simpa [procRuns] using ih

/-- What `procRuns` does to the `i`-th run: interior runs of length
> 2 are frequency-sorted, everything else (short interior runs and
the final run) is untouched. -/
theorem procRuns_get (rs : List (List PolyEntry)) (i : Nat) (hi : i < rs.length)
    (hi' : i < (procRuns rs).length) :
    (procRuns rs).get ⟨i, hi'⟩ =
      if i + 1 < rs.length ∧ 2 < (rs.get ⟨i, hi⟩).length
      then sort_by_frequency (rs.get ⟨i, hi⟩) else rs.get ⟨i, hi⟩ := by
  induction rs generalizing i with
  | nil => exact absurd hi (by simp)
  | cons r rest ih =>
    cases rest with
    | nil =>
        have h0 : i = 0 := Nat.lt_one_iff.mp (by simpa using hi)
        subst h0
        simp [procRuns]
    | cons r' rest' =>
        cases i with
        | zero =>
            have h1 : (0 : Nat) + 1 < (r :: r' :: rest').length := by simp
            by_cases hlen : 2 < r.length <;> simp [procRuns, hlen, h1]
        | succ j =>
            have hj : j < (r' :: rest').length := by simpa using hi
            have hj' : j < (procRuns (r' :: rest')).length := by
              rw [procRuns_length]; exact hj
            have := ih j hj hj'
            simp only [procRuns, List.get_cons_succ]
            rw [this]
            have hiff : j + 1 < (r' :: rest').length ↔ j + 1 + 1 < (r :: r' :: rest').length := by
              simp
            by_cases hc : j + 1 < (r' :: rest').length ∧ 2 < ((r' :: rest').get ⟨j, hj⟩).length
            · simp only [if_pos hc]
              rw [if_pos]
              exact ⟨by omega, hc.2⟩
            · rw [if_neg hc, if_neg]
              intro hc2
              exact hc ⟨by omega, hc2.2⟩

/-- The key of any entry of the processed table is the key of some
entry of the original table (processing only rewrites weights and
permutes within runs). -/
theorem procRuns_flatten_mem_key (rs : List (List PolyEntry)) :
    ∀ y ∈ (procRuns rs).flatten, ∃ y₀ ∈ rs.flatten, y.key = y₀.key := by
  induction rs with
  | nil => intro y hy; simp [procRuns] at hy
  | cons r rest ih =>
    cases rest with
    | nil =>
        intro y hy
        exact ⟨y, by simpa [procRuns] using hy, rfl⟩
    | cons r' rest' =>
        intro y hy
        simp only [procRuns, List.flatten_cons, List.mem_append] at hy
        rcases hy with hy | hy
        · by_cases hlen : 2 < r.length
          · rw [if_pos hlen] at hy
            obtain ⟨y₀, hy₀, hk⟩ := sbf_mem_key hy
            exact ⟨y₀, by simp [hy₀], hk⟩
          · rw [if_neg hlen] at hy
            exact ⟨y, by simp [hy], rfl⟩
        · obtain ⟨y₀, hy₀, hk⟩ := ih y hy
          refine ⟨y₀, ?_, hk⟩
          simp only [List.flatten_cons, List.mem_append]
          exact Or.inr (by simpa using hy₀)

/-- Processing the runs preserves sortedness by key of the flattened
table, provided each run is key-constant (as the runs of `chunkRuns`
are). -/
theorem procRuns_flatten_sorted (rs : List (List PolyEntry))
    (hconst : ∀ r ∈ rs, ∀ x ∈ r, ∀ y ∈ r, x.key = y.key)
    (hne : ∀ r ∈ rs, r ≠ [])
    (hsorted : List.Pairwise keyle rs.flatten) :
    List.Pairwise keyle (procRuns rs).flatten := by
  induction rs with
  | nil => exact hsorted
  | cons r rest ih =>
    cases rest with
    | nil => exact hsorted
    | cons r' rest' =>
        simp only [List.flatten_cons] at hsorted
        rw [List.pairwise_append] at hsorted
        obtain ⟨h1, h2, hcross⟩ := hsorted
        have hconst_r : ∀ x ∈ r, ∀ y ∈ r, x.key = y.key :=
          hconst r (List.mem_cons_self _ _)
        have hr_ne : r ≠ [] := hne r (List.mem_cons_self _ _)
        have ihres : List.Pairwise keyle (procRuns (r' :: rest')).flatten := by
          refine ih (fun q hq => hconst q (List.mem_cons_of_mem _ hq))
            (fun q hq => hne q (List.mem_cons_of_mem _ hq)) ?_
          rw [List.flatten_cons]
          exact h2
        obtain ⟨a₀, ha₀⟩ := List.exists_mem_of_ne_nil r hr_ne
        simp only [procRuns, List.flatten_cons]
        rw [List.pairwise_append]
        refine ⟨?_, ihres, ?_⟩
        · by_cases hlen : 2 < r.length
          · rw [if_pos hlen]
            refine List.pairwise_of_forall_mem_list ?_
            intro x hx y hy
            obtain ⟨x₀, hx₀, hxk⟩ := sbf_mem_key hx
            obtain ⟨y₀, hy₀, hyk⟩ := sbf_mem_key hy
            show x.key ≤ y.key
            rw [hxk, hyk, hconst_r x₀ hx₀ y₀ hy₀]
          · rw [if_neg hlen]
            refine List.pairwise_of_forall_mem_list ?_
            intro x hx y hy
            show x.key ≤ y.key
            rw [hconst_r x hx y hy]
        · intro x hx y hy
          have hxk : x.key = a₀.key := by
            by_cases hlen : 2 < r.length
            · rw [if_pos hlen] at hx
              obtain ⟨x₀, hx₀, hk⟩ := sbf_mem_key hx
              rw [hk]; exact hconst_r x₀ hx₀ a₀ ha₀
            · rw [if_neg hlen] at hx
              exact hconst_r x hx a₀ ha₀
          obtain ⟨y₀, hy₀, hyk⟩ := procRuns_flatten_mem_key _ y hy
          show x.key ≤ y.key
          rw [hxk, hyk]
          exact hcross a₀ ha₀ y₀ (by simpa using hy₀)

/-- The records the loop of `write_poly_file` emits form a sublist of
the table. -/
theorem writeLoop_sublist (full : Bool) :
    ∀ (l : List PolyEntry) (prev : PolyEntry), (writeLoop full prev l).Sublist l := by
  intro l
  induction l with
  | nil => intro prev; simp [writeLoop]
  | cons e rest ih =>
    intro prev
    simp only [writeLoop]
    by_cases hc : e.key ≠ prev.key ∨ e.move ≠ prev.move ∨ full = true
    · rw [if_pos hc]
      exact List.Sublist.cons₂ e (ih e)
    · rw [if_neg hc]
      exact List.Sublist.cons e (ih prev)

/-- The written records form a sublist of the aggregated table. -/
theorem write_poly_file_sublist (t : List PolyEntry) (full : Bool) :
    (write_poly_file t full).Sublist t := by
  cases t with
  | nil => simp [write_poly_file]
  | cons e0 rest => exact writeLoop_sublist full (e0 :: rest) e0

/-! ### Lemmas about the replayer `parse_game` -/

/-- The entry buffer handed to `parse_game` is only ever appended to,
and the fixable-error counter only ever counts up: the run from
buffer `acc` and counter `fixed` is the run from an empty buffer and
a zero counter, shifted. -/
theorem parse_game_shift {Pos : Type} (E : Engine Pos) (learn : Nat)
    (ts : List (List Nat)) :
    ∀ (pos : Pos) (acc : List PolyEntry) (fixed : Nat),
      parse_game E learn ts pos acc fixed =
        (acc ++ (parse_game E learn ts pos [] 0).1,
         fixed + (parse_game E learn ts pos [] 0).2.1,
         (parse_game E learn ts pos [] 0).2.2) := by
  induction ts with
  | nil => intro pos acc fixed; simp [parse_game]
  | cons s rest ih =>
    intro pos acc fixed
    cases h : E.resolve pos s with
    | none => simp [parse_game, h]
    | some o =>
      cases o with
      | none =>
          simp only [parse_game, h]
          rw [ih (E.doNullMove pos) acc fixed, ih (E.doNullMove pos) [] 0]
      | some m =>
          simp only [parse_game, h]
          rw [ih]
          simp only [List.nil_append]
          have h2 := ih (E.doMove pos m)
            [({ key := E.key pos, move := to_polyglot m, weight := 1, learn := learn } : PolyEntry)] 0
          rw [h2]
          simp

/-- If every token of `ts₁` resolves from `pos` and the next token
`bad` does not, the replayer processes exactly `ts₁`, then stops at
`bad`: the tokens after it are never looked at, the error counter is
bumped by exactly one, and the buffer is left exactly as the
successful prefix left it. -/
theorem parse_game_abandons {Pos : Type} (E : Engine Pos) (learn : Nat)
    (ts₁ : List (List Nat)) (bad : List Nat) (ts₂ : List (List Nat)) :
    ∀ (pos : Pos) (acc : List PolyEntry) (fixed : Nat),
      ResolvesAll E pos ts₁ →
      E.resolve (playAll E pos ts₁) bad = none →
      parse_game E learn (ts₁ ++ bad :: ts₂) pos acc fixed =
        ((parse_game E learn ts₁ pos acc fixed).1,
         (parse_game E learn ts₁ pos acc fixed).2.1 + 1,
         false) := by
  induction ts₁ with
  | nil =>
      intro pos acc fixed _ hbad
      simp only [playAll, List.foldl_nil] at hbad
      simp [parse_game, hbad]
  | cons s rest ih =>
      intro pos acc fixed hall hbad
      obtain ⟨hs, hall'⟩ := hall
      have hplay : playAll E pos (s :: rest) = playAll E (stepPos E pos s) rest := by
        simp [playAll]
      rw [hplay] at hbad
      cases h : E.resolve pos s with
      | none => exact absurd h hs
      | some o =>
        cases o with
        | none =>
            have hstep : stepPos E pos s = E.doNullMove pos := by simp [stepPos, h]
            rw [hstep] at hall' hbad
            simp only [List.cons_append, parse_game, h]
            exact ih (E.doNullMove pos) acc fixed hall' hbad
        | some m =>
            have hstep : stepPos E pos s = E.doMove pos m := by simp [stepPos, h]
            rw [hstep] at hall' hbad
            simp only [List.cons_append, parse_game, h]
            exact ih (E.doMove pos m) (acc ++ [⟨E.key pos, to_polyglot m, 1, learn⟩]) fixed hall' hbad

/-! ### The parser never pops an empty stack -/

theorem ToStep_pop_poppable (st : PState) (tk : Tok)
    (h : ToStep st tk = .POP_STATE) : poppable st = true := by
  cases st <;> cases tk <;> simp_all [ToStep, poppable]

theorem ToStep_closeFen (st : PState) (tk : Tok)
    (h : ToStep st tk = .CLOSE_FEN_TAG) : st = .FEN_TAG := by
  cases st <;> cases tk <;> simp_all [ToStep]

/-- Pushing the current state preserves the invariant, whatever state
is entered next. -/
theorem pinv_push (c : PCfg) (h : PInv c) (X : PState) :
    PInv { pushSt c c.state with state := X } := by
  refine ⟨fun _ => by simp [pushSt], ?_, h.2⟩
  exact h.1

/-- Flushing a game moves to HEADER and leaves the stack alone. -/
theorem pinv_flush (c : PCfg) (h : PInv c) (input : List Nat) (i : Nat) :
    PInv (flushGame c input i) := by
  exact ⟨fun hp => by simp [flushGame, poppable] at hp, h.2⟩

/-- One parser step started from an invariant configuration never
underflows the stack, and preserves the invariant. -/
theorem pgnStep_preserves (input : List Nat) (i : Nat) (c : PCfg) (h : PInv c) :
    pgnStep input i c ≠ .underflow ∧
      (∀ c' adv, pgnStep input i c = .ok c' adv → PInv c') := by
  simp only [pgnStep.eq_def]
  cases hs : ToStep c.state (ToToken (byteAt input i)) with
  | FAIL => exact ⟨by simp, by simp⟩
  | CONTINUE =>
      refine ⟨by simp, ?_⟩
      intro c' adv hok
      simp only [StepOut.ok.injEq] at hok
      rw [← hok.1]
      exact h
  | OPEN_TAG =>
      refine ⟨by simp, ?_⟩
      intro c' adv hok
      simp only [StepOut.ok.injEq] at hok
      rw [← hok.1]
      exact pinv_push c h _
  | OPEN_BRACE_COMMENT =>
      refine ⟨by simp, ?_⟩
      intro c' adv hok
      simp only [StepOut.ok.injEq] at hok
      rw [← hok.1]
      exact pinv_push c h _
  | READ_FEN =>
      refine ⟨by simp, ?_⟩
      intro c' adv hok
      simp only [StepOut.ok.injEq] at hok
      rw [← hok.1]
      exact ⟨h.1, h.2⟩
  | CLOSE_FEN_TAG =>
      refine ⟨by simp, ?_⟩
      intro c' adv hok
      simp only [StepOut.ok.injEq] at hok
      rw [← hok.1]
      refine ⟨fun _ => ?_, h.2⟩
      exact h.1 (by rw [ToStep_closeFen _ _ hs]; rfl)
  | OPEN_VARIATION =>
      refine ⟨by simp, ?_⟩
      intro c' adv hok
      simp only [StepOut.ok.injEq] at hok
      rw [← hok.1]
      exact pinv_push c h _
  | START_NAG =>
      refine ⟨by simp, ?_⟩
      intro c' adv hok
      simp only [StepOut.ok.injEq] at hok
      rw [← hok.1]
      exact pinv_push c h _
  | POP_STATE =>
      have hne : c.stack ≠ [] := h.1 (ToStep_pop_poppable _ _ hs)
      cases hstk : c.stack with
      | nil => exact absurd hstk hne
      | cons v rest =>
          have hOK : stackOK (v :: rest) := hstk ▸ h.2
          refine ⟨by simp, ?_⟩
          intro c' adv hok
          simp only [hstk, StepOut.ok.injEq] at hok
          rw [← hok.1]
          exact ⟨hOK.1, hOK.2⟩
  | START_MOVE_NUMBER =>
      refine ⟨by simp, ?_⟩
      intro c' adv hok
      simp only [StepOut.ok.injEq] at hok
      rw [← hok.1]
      exact ⟨fun hp => by simp [poppable] at hp, h.2⟩
  | START_NEXT_SAN =>
      refine ⟨by simp, ?_⟩
      intro c' adv hok
      simp only [StepOut.ok.injEq] at hok
      rw [← hok.1]
      exact ⟨fun hp => by simp [poppable] at hp, h.2⟩
  | CASTLE_OR_RESULT =>
      by_cases hpk : byteAt input (i+2) ≠ 48
      · refine ⟨by simp [hpk], ?_⟩
        intro c' adv hok
        rw [if_pos hpk] at hok
        simp only [StepOut.ok.injEq] at hok
        rw [← hok.1]
        exact ⟨fun hp => by simp [poppable] at hp, h.2⟩
      · refine ⟨by simp [hpk], ?_⟩
        intro c' adv hok
        rw [if_neg hpk] at hok
        simp only [StepOut.ok.injEq] at hok
        rw [← hok.1]
        exact ⟨fun hp => by simp [poppable] at hp, h.2⟩
  | START_READ_SAN =>
      refine ⟨by simp, ?_⟩
      intro c' adv hok
      simp only [StepOut.ok.injEq] at hok
      rw [← hok.1]
      exact ⟨fun hp => by simp [poppable] at hp, h.2⟩
  | READ_MOVE_CHAR =>
      refine ⟨by simp, ?_⟩
      intro c' adv hok
      simp only [StepOut.ok.injEq] at hok
      rw [← hok.1]
      exact ⟨h.1, h.2⟩
  | END_MOVE =>
      refine ⟨by simp, ?_⟩
      intro c' adv hok
      simp only [StepOut.ok.injEq] at hok
      rw [← hok.1]
      refine ⟨fun hp => ?_, h.2⟩
      by_cases hstm : c.stm <;> simp [hstm, poppable] at hp
  | START_RESULT =>
      refine ⟨by simp, ?_⟩
      intro c' adv hok
      simp only [StepOut.ok.injEq] at hok
      rw [← hok.1]
      exact ⟨fun hp => by simp [poppable] at hp, h.2⟩
  | END_GAME =>
      by_cases hb : byteAt input i ≠ 10
      · refine ⟨by simp [hb], ?_⟩
        intro c' adv hok
        rw [if_pos hb] at hok
        simp only [StepOut.ok.injEq] at hok
        rw [← hok.1]
        exact ⟨fun hp => by simp [poppable] at hp, h.2⟩
      · refine ⟨by simp [hb], ?_⟩
        intro c' adv hok
        rw [if_neg hb] at hok
        simp only [StepOut.ok.injEq] at hok
        rw [← hok.1]
        exact pinv_flush c h input i
  | TAG_IN_BRACE =>
      by_cases hev : ¬ eventAt input i
      · refine ⟨by simp [hev], ?_⟩
        intro c' adv hok
        rw [if_pos hev] at hok
        simp only [StepOut.ok.injEq] at hok
        rw [← hok.1]
        exact h
      · refine ⟨by simp [hev], ?_⟩
        intro c' adv hok
        rw [if_neg hev] at hok
        simp only [StepOut.ok.injEq] at hok
        rw [← hok.1]
        exact pinv_push _ (pinv_flush c h input i) _
  | MISSING_RESULT =>
      refine ⟨by simp, ?_⟩
      intro c' adv hok
      simp only [StepOut.ok.injEq] at hok
      rw [← hok.1]
      exact pinv_push _ (pinv_flush c h input i) _

/-- The parser loop never underflows the stack from an invariant
configuration. -/
theorem pgnLoop_no_underflow (input : List Nat) :
    ∀ (fuel i : Nat) (c : PCfg), PInv c → pgnLoop input fuel i c ≠ .underflow := by
  intro fuel
  induction fuel with
  | zero => intro i c _; simp [pgnLoop]
  | succ n ih =>
      intro i c hc
      simp only [pgnLoop]
      by_cases hlt : i < input.length
      · rw [if_pos hlt]
        obtain ⟨hnu, hpres⟩ := pgnStep_preserves input i c hc
        cases hstep : pgnStep input i c with
        | fail => simp
        | underflow => exact absurd hstep hnu
        | ok c' adv => exact ih (i + 1 + adv) c' (hpres c' adv hstep)
      · rw [if_neg hlt]; simp

/-! ### Correctness of the `find_first` binary search -/

/-- The loop of `find_first` homes in on the leftmost occurrence `L`
of the probed key: if `L` lies in `[low, high]`, keys are sorted up
to `high`, every index below `L` misses the key and `L` carries it,
the loop returns `L` (given enough fuel for the shrinking interval). -/
theorem findFirstLoop_eq (file : List Nat) (key : Nat) :
    ∀ (fuel low high L : Nat), high - low < fuel →
      low ≤ L → L ≤ high →
      (∀ i j, i ≤ j → j ≤ high → keyAt file i ≤ keyAt file j) →
      keyAt file L = key →
      (∀ j, j < L → keyAt file j ≠ key) →
      findFirstLoop file key fuel low high = L := by
  intro fuel
  induction fuel with
  | zero => intro low high L hf; omega
  | succ n ih =>
      intro low high L hf hlow hhigh hsorted hL hmin
      by_cases hlh : low < high
      · have hmidlt : (low + high) / 2 < high := by omega
        have hmidge : low ≤ (low + high) / 2 := by omega
        simp only [findFirstLoop, if_pos hlh]
        by_cases hcmp : key ≤ keyAt file ((low + high) / 2)
        · rw [if_pos hcmp]
          have hLmid : L ≤ (low + high) / 2 := by
            by_contra hgt
            push_neg at hgt
            have h1 : keyAt file ((low + high) / 2) ≤ keyAt file L :=
              hsorted _ _ (by omega) hhigh
            have h2 : keyAt file ((low + high) / 2) = key := by omega
            exact hmin _ hgt h2
          exact ih low ((low + high) / 2) L (by omega) hlow hLmid
            (fun i j hij hj => hsorted i j hij (by omega)) hL hmin
        · rw [if_neg hcmp]
          push_neg at hcmp
          have hLgt : (low + high) / 2 < L := by
            by_contra hle
            push_neg at hle
            have h1 : keyAt file L ≤ keyAt file ((low + high) / 2) :=
              hsorted _ _ hle (by omega)
            omega
          exact ih ((low + high) / 2 + 1) high L (by omega) (by omega) hhigh
            hsorted hL hmin
      · simp only [findFirstLoop, if_neg hlh]
        omega

/-! ### Frequency-weight overflow: lemmas for the 65536-duplicate run -/

/-- A merge sort of a constant list is that list (it is a permutation
of it, and permutations of `replicate` are `replicate`). -/
theorem mergeSort_replicate (le : PolyEntry → PolyEntry → Bool) (n : Nat) (a : PolyEntry) :
    (List.replicate n a).mergeSort le = List.replicate n a := by
  have hp := List.mergeSort_perm (List.replicate n a) le
  rw [List.eq_replicate_iff]
  constructor
  · rw [hp.length_eq, List.length_replicate]
  · intro b hb
    exact List.eq_of_mem_replicate (hp.mem_iff.mp hb)

/-- Sorting by frequency on a constant run of length `n` rewrites every
weight to `n % 2 ^ 16` and keeps the run order. -/
theorem sbf_replicate (n : Nat) (e : PolyEntry) :
    sort_by_frequency (List.replicate n e) =
      List.replicate n { e with weight := n % 2 ^ 16 } := by
  unfold sort_by_frequency
  have hc : countMove (List.replicate n e) e.move = n := by
    unfold countMove
    rw [List.countP_replicate]
    simp
  rw [List.map_replicate, hc]
  exact mergeSort_replicate _ _ _

/-- Run decomposition of `replicate (m+1) e ++ [b]` when `b` has a
different key: one constant run, then the singleton. -/
theorem chunkRuns_replicate_append (e b : PolyEntry) (hne : e.key ≠ b.key) :
    ∀ m : Nat, chunkRuns (List.replicate (m + 1) e ++ [b]) =
      List.replicate (m + 1) e :: [[b]] := by
  intro m
  induction m with
  | zero => simp [chunkRuns, hne]
  | succ k ih =>
      have hrep : List.replicate (k + 1 + 1) e ++ [b] =
          e :: (List.replicate (k + 1) e ++ [b]) := by
        simp [List.replicate_succ]
      rw [hrep]
      have step : chunkRuns (e :: (List.replicate (k + 1) e ++ [b])) =
          match chunkRuns (List.replicate (k + 1) e ++ [b]) with
          | [] => [[e]]
          | [] :: rs => [e] :: [] :: rs
          | (f :: r) :: rs =>
            if e.key = f.key then (e :: f :: r) :: rs else [e] :: (f :: r) :: rs := rfl
      rw [step, ih]
      simp [List.replicate_succ]

/-- The write loop skips a block of entries equal to `prev` in normal
mode. -/
theorem writeLoop_skip_replicate (prev : PolyEntry) (l : List PolyEntry) :
    ∀ m : Nat, writeLoop false prev (List.replicate m prev ++ l) = writeLoop false prev l := by
  intro m
  induction m with
  | zero => simp
  | succ k ih =>
      rw [List.replicate_succ]
      simp only [List.cons_append, writeLoop]
      rw [if_neg (by simp)]
      exact ih

/-- One skipped entry of the write loop. -/
theorem writeLoop_cons_skip (full : Bool) (prev e : PolyEntry) (rest : List PolyEntry)
    (h : ¬(e.key ≠ prev.key ∨ e.move ≠ prev.move ∨ full = true)) :
    writeLoop full prev (e :: rest) = writeLoop full prev rest := by
  simp only [writeLoop]
  rw [if_neg h]

/-- One emitted entry of the write loop. -/
theorem writeLoop_cons_emit (full : Bool) (prev e : PolyEntry) (rest : List PolyEntry)
    (h : e.key ≠ prev.key ∨ e.move ≠ prev.move ∨ full = true) :
    writeLoop full prev (e :: rest) = e :: writeLoop full e rest := by
  simp only [writeLoop]
  rw [if_pos h]

/-- The full pipeline on a corpus buffer holding one key-0 entry, `n`
identical key-1 entries (same move 5) and one key-2 entry: the key-1
run is interior and long, so its weights all become `n % 2 ^ 16`; the
writer then collapses the duplicates, drops the very first table
entry, and emits the key-1 record with that (possibly wrapped) weight. -/
theorem process_block (n : Nat) (hn : 2 < n) :
    process ((⟨0,9,1,0⟩ : PolyEntry) ::
        (List.replicate n (⟨1,5,1,0⟩ : PolyEntry) ++ [(⟨2,6,1,0⟩ : PolyEntry)])) false
      = [⟨1, 5, n % 2 ^ 16, 0⟩, ⟨2,6,1,0⟩] := by
  obtain ⟨m, rfl⟩ : ∃ m, n = m + 1 := ⟨n - 1, by omega⟩
  have hpair : List.Pairwise (fun x y => keyLeB x y = true)
      ((⟨0,9,1,0⟩ : PolyEntry) ::
        (List.replicate (m+1) (⟨1,5,1,0⟩ : PolyEntry) ++ [(⟨2,6,1,0⟩ : PolyEntry)])) := by
    constructor
    · intro x hx
      simp [keyLeB]
    · rw [List.pairwise_append]
      refine ⟨?_, by simp, ?_⟩
      · refine List.pairwise_of_forall_mem_list ?_
        intro x hx y hy
        rw [List.eq_of_mem_replicate hx, List.eq_of_mem_replicate hy]
        simp [keyLeB]
      · intro x hx y hy
        rw [List.eq_of_mem_replicate hx]
        simp at hy
        rw [hy]
        simp [keyLeB]
  have hms := List.mergeSort_of_sorted hpair
  have hchunk : chunkRuns ((⟨0,9,1,0⟩ : PolyEntry) ::
      (List.replicate (m+1) (⟨1,5,1,0⟩ : PolyEntry) ++ [(⟨2,6,1,0⟩ : PolyEntry)])) =
      [(⟨0,9,1,0⟩ : PolyEntry)] ::
        List.replicate (m+1) (⟨1,5,1,0⟩ : PolyEntry) :: [[(⟨2,6,1,0⟩ : PolyEntry)]] := by
    have step : chunkRuns ((⟨0,9,1,0⟩ : PolyEntry) ::
        (List.replicate (m+1) (⟨1,5,1,0⟩ : PolyEntry) ++ [(⟨2,6,1,0⟩ : PolyEntry)])) =
        match chunkRuns (List.replicate (m+1) (⟨1,5,1,0⟩ : PolyEntry) ++
            [(⟨2,6,1,0⟩ : PolyEntry)]) with
        | [] => [[(⟨0,9,1,0⟩ : PolyEntry)]]
        | [] :: rs => [(⟨0,9,1,0⟩ : PolyEntry)] :: [] :: rs
        | (f :: r) :: rs =>
          if (⟨0,9,1,0⟩ : PolyEntry).key = f.key
          then ((⟨0,9,1,0⟩ : PolyEntry) :: f :: r) :: rs
          else [(⟨0,9,1,0⟩ : PolyEntry)] :: (f :: r) :: rs := rfl
    rw [step, chunkRuns_replicate_append _ _ (by simp) m]
    simp [List.replicate_succ]
  have hsbf := sbf_replicate (m+1) (⟨1,5,1,0⟩ : PolyEntry)
  have hproc : procRuns ([(⟨0,9,1,0⟩ : PolyEntry)] ::
      List.replicate (m+1) (⟨1,5,1,0⟩ : PolyEntry) :: [[(⟨2,6,1,0⟩ : PolyEntry)]]) =
      [(⟨0,9,1,0⟩ : PolyEntry)] ::
        List.replicate (m+1) (⟨1, 5, (m+1) % 2 ^ 16, 0⟩ : PolyEntry) ::
          [[(⟨2,6,1,0⟩ : PolyEntry)]] := by
    have hlen : 2 < (List.replicate (m+1) (⟨1,5,1,0⟩ : PolyEntry)).length := by
      simpa using hn
    simp only [procRuns, List.length_singleton]
    rw [if_neg (by omega), if_pos hlen, hsbf]
  simp only [process, hms, aggregate, hchunk, hproc, List.flatten_cons, List.flatten_nil,
    List.append_nil, List.singleton_append]
  rw [List.replicate_succ]
  simp only [List.cons_append]
  have hw : write_poly_file ((⟨0,9,1,0⟩ : PolyEntry) :: (⟨1, 5, (m+1) % 2 ^ 16, 0⟩ : PolyEntry) ::
      (List.replicate m (⟨1, 5, (m+1) % 2 ^ 16, 0⟩ : PolyEntry) ++ [(⟨2,6,1,0⟩ : PolyEntry)]))
      false =
      writeLoop false (⟨0,9,1,0⟩ : PolyEntry) ((⟨0,9,1,0⟩ : PolyEntry) ::
        (⟨1, 5, (m+1) % 2 ^ 16, 0⟩ : PolyEntry) ::
        (List.replicate m (⟨1, 5, (m+1) % 2 ^ 16, 0⟩ : PolyEntry) ++
          [(⟨2,6,1,0⟩ : PolyEntry)])) := rfl
  rw [hw, writeLoop_cons_skip _ _ _ _ (by simp), writeLoop_cons_emit _ _ _ _ (by simp),
    writeLoop_skip_replicate _ _ m, writeLoop_cons_emit _ _ _ _ (by simp)]
  simp [writeLoop]

/-! ### Bit-level facts about `to_polyglot` -/

/-- Disjoint bit-or is addition: `(y <<< k) ||| x = y * 2 ^ k + x`
when `x` fits below bit `k`. -/
theorem lor_shiftLeft_add (y x k : Nat) (h : x < 2 ^ k) :
    (y <<< k) ||| x = y * 2 ^ k + x := by
  apply Nat.eq_of_testBit_eq
  intro i
  rw [Nat.testBit_lor, Nat.testBit_shiftLeft, Nat.mul_comm y (2 ^ k),
    Nat.testBit_mul_pow_two_add y h i]
  by_cases hik : i < k
  · simp [hik, Nat.not_le.mpr hik]
  · have hge : i ≥ k := Nat.le_of_not_lt hik
    simp [hik, hge,
      Nat.testBit_lt_two_pow (Nat.lt_of_lt_of_le h (Nat.pow_le_pow_right (by norm_num) hge))]

/-- The `m & PROMOTION` test of `to_polyglot` in arithmetic form. -/
theorem and_flag_iff (m : Nat) : m &&& (1 <<< 14) ≠ 0 ↔ m / 2 ^ 14 % 2 = 1 := by
  have h14 : (1 : Nat) <<< 14 = 2 ^ 14 := rfl
  rw [h14, Nat.and_two_pow, Nat.testBit_to_div_mod]
  by_cases h : m / 2 ^ 14 % 2 = 1 <;> simp [h]

theorem to_polyglot_mkMove (f t : Nat) (hf : f < 64) (ht : t < 64) :
    to_polyglot (mkMove f t) = f * 64 + t := by
  have hm : mkMove f t = f * 64 + t := by
    simp only [mkMove, Nat.shiftLeft_eq]
  rw [hm]
  unfold to_polyglot
  rw [if_neg (by rw [and_flag_iff]; omega)]
  have h3fff : (0x3FFF : Nat) = 2 ^ 14 - 1 := rfl
  rw [h3fff, Nat.and_pow_two_sub_one_eq_mod]
  omega

theorem to_polyglot_mkEnPassant (f t : Nat) (hf : f < 64) (ht : t < 64) :
    to_polyglot (mkEnPassant f t) = f * 64 + t := by
  have hm : mkEnPassant f t = 2 * 16384 + (f * 64 + t) := by
    simp only [mkEnPassant, Nat.shiftLeft_eq]
    ring
  rw [hm]
  unfold to_polyglot
  rw [if_neg (by rw [and_flag_iff]; omega)]
  have h3fff : (0x3FFF : Nat) = 2 ^ 14 - 1 := rfl
  rw [h3fff, Nat.and_pow_two_sub_one_eq_mod]
  omega

theorem promotion_type_arith (m : Nat) : promotion_type m = m / 4096 % 4 + 2 := by
  unfold promotion_type
  rw [Nat.shiftRight_eq_div_pow]
  have h3 : (3 : Nat) = 2 ^ 2 - 1 := rfl
  rw [h3, Nat.and_pow_two_sub_one_eq_mod]

theorem to_polyglot_mkCastling (f t : Nat) (hf : f < 64) (ht : t < 64) :
    to_polyglot (mkCastling f t) = 4096 + (f * 64 + t) := by
  have hm : mkCastling f t = 3 * 16384 + (f * 64 + t) := by
    simp only [mkCastling, Nat.shiftLeft_eq]
    ring
  rw [hm]
  unfold to_polyglot
  rw [if_pos (by rw [and_flag_iff]; omega)]
  have hfff : (0xFFF : Nat) = 2 ^ 12 - 1 := rfl
  rw [hfff, Nat.and_pow_two_sub_one_eq_mod, promotion_type_arith]
  have hpt : (3 * 16384 + (f * 64 + t)) / 4096 % 4 + 2 - 1 = 1 := by omega
  rw [hpt]
  rw [Nat.lor_comm, lor_shiftLeft_add 1 ((3 * 16384 + (f * 64 + t)) % 2 ^ 12) 12 (by omega)]
  omega

theorem to_polyglot_mkPromotion (f t pt : Nat) (hf : f < 64) (ht : t < 64)
    (hpt2 : 2 ≤ pt) (hpt6 : pt < 6) :
    to_polyglot (mkPromotion f t pt) = (pt - 1) * 4096 + (f * 64 + t) := by
  have hm : mkPromotion f t pt = 16384 + (pt - 2) * 4096 + (f * 64 + t) := by
    simp only [mkPromotion, Nat.shiftLeft_eq]
    ring
  rw [hm]
  unfold to_polyglot
  rw [if_pos (by rw [and_flag_iff]; omega)]
  have hfff : (0xFFF : Nat) = 2 ^ 12 - 1 := rfl
  rw [hfff, Nat.and_pow_two_sub_one_eq_mod, promotion_type_arith]
  have hpt : (16384 + (pt - 2) * 4096 + (f * 64 + t)) / 4096 % 4 + 2 - 1 = pt - 1 := by
    omega
  rw [hpt]
  rw [Nat.lor_comm,
    lor_shiftLeft_add (pt - 1) ((16384 + (pt - 2) * 4096 + (f * 64 + t)) % 2 ^ 12) 12
      (by omega)]
  omega

/-! ### The claims -/

/-- C1: the claim says the 32-bit learn field carries the result code
(0..3) in bits 30-31 and `offset >> 3` in bits 0-29.  The code
(parser.cpp line 268) shifts by **31**, not 30, in uint32 arithmetic:
bit 30 of `learn` is always 0 and bit 31 is only the low bit of the
result, so `learn >>> 30` is 0 for white-win(0) *and* draw(2), and 2
for black-win(1) *and* unknown(3) — a draw is indistinguishable from
a white win, contradicting the claim (and the code's own comment
"Result is stored in the upper 2 bits").  The low 30 bits do carry
`offset >> 3` as claimed (last conjunct).  This theorem evaluates the
learn computation at the failing result codes. -/
theorem C1_learn_result_bits :
    learnField 0 0 / 2 ^ 30 = 0 ∧
    learnField 1 0 / 2 ^ 30 = 2 ∧
    learnField 2 0 / 2 ^ 30 = 0 ∧
    learnField 3 0 / 2 ^ 30 = 2 ∧
    learnField 2 80 = learnField 0 80 ∧
    learnField 1 64 % 2 ^ 30 = 8 := by decide

/-- C2 counterexample: a table that is one single (hence final) run of
length 3 with repeated move 5.  The claim demands the weights become
the occurrence counts (2, 2, 1) and the run be reordered; the
aggregation loop of `process_pgn` never processes the run ending at
the end of the table, so every weight stays 1 and nothing moves. -/
theorem C2_final_run_counterexample :
    aggregate [(⟨1,5,1,0⟩ : PolyEntry), ⟨1,5,1,0⟩, ⟨1,7,1,0⟩] =
      [(⟨1,5,1,0⟩ : PolyEntry), ⟨1,5,1,0⟩, ⟨1,7,1,0⟩] ∧
    countMove [(⟨1,5,1,0⟩ : PolyEntry), ⟨1,5,1,0⟩, ⟨1,7,1,0⟩] 5 = 2 ∧
    ¬ (∀ e ∈ aggregate [(⟨1,5,1,0⟩ : PolyEntry), ⟨1,5,1,0⟩, ⟨1,7,1,0⟩],
        e.weight = countMove [(⟨1,5,1,0⟩ : PolyEntry), ⟨1,5,1,0⟩, ⟨1,7,1,0⟩] e.move) := by
  decide

/-- C2 (amended): after the global sort, every maximal equal-key run
that is *followed by a key change* (every run except the one ending
at the end of the table) is, when its length is ≥ 3, reweighted (each
entry's weight becomes the occurrence count of its move within the
run, stored modulo 2^16) and reordered by (weight descending, move
descending); interior runs of length ≤ 2 and the final run are left
untouched with all weights keeping their initial value 1. -/
theorem C2_aggregate_runs (t : List PolyEntry) (h1 : ∀ e ∈ t, e.weight = 1)
    (i : Nat) (hi : i < (chunkRuns t).length)
    (hi' : i < (procRuns (chunkRuns t)).length) :
    aggregate t = (procRuns (chunkRuns t)).flatten ∧
    (chunkRuns t).flatten = t ∧
    (i + 1 < (chunkRuns t).length ∧ 2 < ((chunkRuns t).get ⟨i, hi⟩).length →
      ((procRuns (chunkRuns t)).get ⟨i, hi'⟩).Perm
        (((chunkRuns t).get ⟨i, hi⟩).map
          (fun e => { e with
            weight := countMove ((chunkRuns t).get ⟨i, hi⟩) e.move % 2 ^ 16 })) ∧
      List.Pairwise wDesc ((procRuns (chunkRuns t)).get ⟨i, hi'⟩)) ∧
    (¬(i + 1 < (chunkRuns t).length ∧ 2 < ((chunkRuns t).get ⟨i, hi⟩).length) →
      (procRuns (chunkRuns t)).get ⟨i, hi'⟩ = (chunkRuns t).get ⟨i, hi⟩ ∧
      ∀ e ∈ (procRuns (chunkRuns t)).get ⟨i, hi'⟩, e.weight = 1) := by
  refine ⟨rfl, chunkRuns_flatten t, ?_, ?_⟩
  · intro hcond
    rw [procRuns_get _ i hi hi', if_pos hcond]
    exact ⟨sbf_perm _, sbf_sorted _⟩
  · intro hcond
    rw [procRuns_get _ i hi hi', if_neg hcond]
    refine ⟨rfl, ?_⟩
    intro e he
    apply h1
    rw [← chunkRuns_flatten t]
    exact List.mem_flatten.mpr ⟨_, List.get_mem _ i hi, he⟩

/-- C2 witness: a table with an interior run of length 3 (keys 1, 2,
2, 2, 3); the theorem applied at run index 1 yields its reordering
guarantee. -/
theorem C2_aggregate_runs_witness :
    List.Pairwise wDesc
      ((procRuns (chunkRuns
        [(⟨1,9,1,0⟩ : PolyEntry), ⟨2,5,1,0⟩, ⟨2,5,1,0⟩, ⟨2,7,1,0⟩, ⟨3,4,1,0⟩])).get
        ⟨1, by rw [procRuns_length]; decide⟩) :=
  ((C2_aggregate_runs
      [(⟨1,9,1,0⟩ : PolyEntry), ⟨2,5,1,0⟩, ⟨2,5,1,0⟩, ⟨2,7,1,0⟩, ⟨3,4,1,0⟩]
      (by decide) 1 (by decide) (by rw [procRuns_length]; decide)).2.2.1
    ⟨by decide, by decide⟩).2

/-- C3: the claim says the first entry of a non-empty aggregated
sequence is always emitted in normal mode.  In `write_poly_file`,
`prev` is initialised to `&kTable[0]` — the first element itself — so
the first element always compares equal to `prev` and is *never*
written in normal mode (it is written in full mode, and subsequent
deduplication works as described): evaluated here on a one-element
table and on a table whose first two entries coincide. -/
theorem C3_first_entry_dropped :
    write_poly_file [(⟨1,2,3,4⟩ : PolyEntry)] false = [] ∧
    write_poly_file [(⟨1,2,3,4⟩ : PolyEntry)] true = [⟨1,2,3,4⟩] ∧
    write_poly_file [(⟨1,2,3,4⟩ : PolyEntry), ⟨1,2,3,4⟩, ⟨5,6,1,0⟩] false = [⟨5,6,1,0⟩] := by
  decide

/-- C4 counterexample: the white short castle (king e1 = square 4 to
its rook h1 = square 7) is not a promotion, yet its emitted move has
bits 12-13 equal to 1, because the C test `m & PROMOTION` is a bit
test and the CASTLING flag (3 << 14) shares bit 14 with PROMOTION
(1 << 14); and a queen promotion writes its code 4 at bit offset 12,
which lands in bit 14 — bits 12-13 of the emitted a7a8=Q move are 0,
never the claimed 4 (the emitted value is 0x4C38, not a value with 4
in a two-bit field, which cannot exist). -/
theorem C4_promo_bits_counterexample :
    to_polyglot (mkCastling 4 7) = 0x1107 ∧
    (to_polyglot (mkCastling 4 7)) >>> 12 &&& 3 = 1 ∧
    to_polyglot (mkPromotion 48 56 5) = 0x4C38 ∧
    ¬((to_polyglot (mkPromotion 48 56 5)) >>> 12 &&& 3 = 4) ∧
    (to_polyglot (mkPromotion 48 56 5)) >>> 14 = 1 := by decide

/-- C4 (amended): for every emitted move, bits 0-5 carry the
destination and bits 6-11 the origin; the promotion piece (1=N .. 4=Q)
occupies bits 12-**14**, 0 for normal and en-passant moves; castling
moves are encoded with the king's origin and its own rook's square as
destination, but carry the value 1 (not 0) in bits 12-14 because the
castling flag overlaps the promotion flag in the internal move word. -/
theorem C4_move_encoding (f t pt : Nat) (hf : f < 64) (ht : t < 64)
    (hpt2 : 2 ≤ pt) (hpt6 : pt < 6) :
    (to_polyglot (mkMove f t)) % 64 = t ∧
    (to_polyglot (mkMove f t)) / 64 % 64 = f ∧
    (to_polyglot (mkMove f t)) / 4096 = 0 ∧
    to_polyglot (mkEnPassant f t) = to_polyglot (mkMove f t) ∧
    (to_polyglot (mkCastling f t)) % 64 = t ∧
    (to_polyglot (mkCastling f t)) / 64 % 64 = f ∧
    (to_polyglot (mkCastling f t)) / 4096 = 1 ∧
    (to_polyglot (mkPromotion f t pt)) % 64 = t ∧
    (to_polyglot (mkPromotion f t pt)) / 64 % 64 = f ∧
    (to_polyglot (mkPromotion f t pt)) / 4096 = pt - 1 := by
  have h1 := to_polyglot_mkMove f t hf ht
  have h2 := to_polyglot_mkEnPassant f t hf ht
  have h3 := to_polyglot_mkCastling f t hf ht
  have h4 := to_polyglot_mkPromotion f t pt hf ht hpt2 hpt6
  rw [h1, h2, h3, h4]
  refine ⟨by omega, by omega, by omega, rfl, by omega, by omega, by omega,
    by omega, by omega, by omega⟩

/-- C4 witness: the queen promotion a7a8=Q (origin 48, destination 56,
piece 5 = queen) carries promotion code 4 in bits 12-14 (= the value
divided by 4096, since the whole word is below 2^15). -/
theorem C4_move_encoding_witness :
    (to_polyglot (mkPromotion 48 56 5)) / 4096 = 4 := by
  have h := C4_move_encoding 48 56 5 (by decide) (by decide) (by decide) (by decide)
  exact h.2.2.2.2.2.2.2.2.2

/-- C5 counterexample: a sorted table whose key-1 run has length 2.
Short runs are never reordered, so the writer emits the two key-1
records with equal weights and *ascending* moves, violating the
claimed (weight descending, move descending) order within an
equal-key run.  (The key-0 head entry is also dropped by the writer;
see C3.) -/
theorem C5_adjacent_order_counterexample :
    process [(⟨0,9,1,0⟩ : PolyEntry), ⟨1,5,1,0⟩, ⟨1,7,1,0⟩] false =
      [(⟨1,5,1,0⟩ : PolyEntry), ⟨1,7,1,0⟩] ∧
    (⟨1,5,1,0⟩ : PolyEntry).key = (⟨1,7,1,0⟩ : PolyEntry).key ∧
    ¬ wDesc (⟨1,5,1,0⟩ : PolyEntry) (⟨1,7,1,0⟩ : PolyEntry) := by
  refine ⟨?_, by decide, by unfold wDesc; decide⟩
  have hms : [(⟨0,9,1,0⟩ : PolyEntry), ⟨1,5,1,0⟩, ⟨1,7,1,0⟩].mergeSort keyLeB =
      [(⟨0,9,1,0⟩ : PolyEntry), ⟨1,5,1,0⟩, ⟨1,7,1,0⟩] :=
    List.mergeSort_of_sorted (by decide)
  simp only [process, hms]
  decide

/-- C5 (amended): for every pair of adjacent written records the keys
are ascending (`R.key ≤ R'.key`); the (weight descending, move
descending) guarantee holds inside the runs the aggregator actually
reorders — interior equal-key runs of length ≥ 3 — while runs of
length ≤ 2 and the final run keep their incoming order and weights. -/
theorem C5_order (t : List PolyEntry) (full : Bool) :
    List.Chain' keyle (process t full) ∧
    (∀ i (hi : i < (chunkRuns (t.mergeSort keyLeB)).length)
       (hi' : i < (procRuns (chunkRuns (t.mergeSort keyLeB))).length),
      i + 1 < (chunkRuns (t.mergeSort keyLeB)).length →
      2 < ((chunkRuns (t.mergeSort keyLeB)).get ⟨i, hi⟩).length →
      List.Pairwise wDesc ((procRuns (chunkRuns (t.mergeSort keyLeB))).get ⟨i, hi'⟩)) := by
  constructor
  · have hms : List.Pairwise keyle (t.mergeSort keyLeB) := by
      have h := List.sorted_mergeSort keyLeB_trans keyLeB_total t
      exact h.imp (fun hab => by simpa [keyLeB, keyle] using hab)
    have hflat : List.Pairwise keyle (chunkRuns (t.mergeSort keyLeB)).flatten := by
      rw [chunkRuns_flatten]
      exact hms
    have hagg : List.Pairwise keyle (aggregate (t.mergeSort keyLeB)) :=
      procRuns_flatten_sorted _ (chunkRuns_const _) (chunkRuns_ne_nil _) hflat
    have hsub := write_poly_file_sublist (aggregate (t.mergeSort keyLeB)) full
    exact (List.Pairwise.sublist hsub hagg).chain'
  · intro i hi hi' h1 h2
    rw [procRuns_get _ i hi hi', if_pos ⟨h1, h2⟩]
    exact sbf_sorted _

/-- C5 witness: the key-ascending half evaluated on a concrete table. -/
theorem C5_order_witness :
    List.Chain' keyle
      (process [(⟨4,9,1,0⟩ : PolyEntry), ⟨2,5,1,0⟩, ⟨2,7,1,0⟩] false) :=
  (C5_order [(⟨4,9,1,0⟩ : PolyEntry), ⟨2,5,1,0⟩, ⟨2,7,1,0⟩] false).1

/-- C6: in state NEXT_SAN on byte '0' the table yields
CASTLE_OR_RESULT, which peeks at the token's *third* character
(`data[2]`): if it is '0' (castling written with zeros, `0-0` or
`0-0-0`), the '0' is appended to the san buffer and the parser starts
READ_SAN (collecting a SAN move token); otherwise (a result such as
`0-1`) the parser switches to RESULT and the san buffers are left
untouched — no move is collected. -/
theorem C6_castle_or_result (input : List Nat) (i : Nat) (c : PCfg)
    (h1 : c.state = .NEXT_SAN) (h2 : byteAt input i = 48) :
    (byteAt input (i+2) = 48 →
      pgnStep input i c = .ok { c with cur := c.cur ++ [48], state := .READ_SAN } 0) ∧
    (byteAt input (i+2) ≠ 48 →
      pgnStep input i c = .ok { c with state := .RESULT } 0) := by
  have hstep : ToStep c.state (ToToken (byteAt input i)) = .CASTLE_OR_RESULT := by
    rw [h1, h2]
    rfl
  constructor
  · intro hp
    simp only [pgnStep.eq_def, hstep]
    rw [if_neg (by simp [hp]), h2]
  · intro hp
    simp only [pgnStep.eq_def, hstep]
    rw [if_pos hp]

/-- C6 witness: the step on `0-0 ` (third character '0') collects the
byte and enters READ_SAN; on `0-1 ` it enters RESULT collecting
nothing. -/
theorem C6_castle_or_result_witness :
    pgnStep [48,45,48,32] 0 { initCfg with state := .NEXT_SAN } =
      .ok { initCfg with state := .READ_SAN, cur := [48] } 0 ∧
    pgnStep [48,45,49,32] 0 { initCfg with state := .NEXT_SAN } =
      .ok { initCfg with state := .RESULT } 0 := by
  constructor
  · exact (C6_castle_or_result [48,45,48,32] 0 _ rfl (by decide)).1 (by decide)
  · exact (C6_castle_or_result [48,45,49,32] 0 _ rfl (by decide)).2 (by decide)

/-- C7: if every token of `ts₁` resolves and the next token `bad`
does not, the replayer returns with exactly the entries of the
successful prefix appended to the incoming buffer (no rollback of
already-emitted entries), the fixable-error counter bumped by one,
and the remaining tokens of the game never processed (the game is
abandoned at the failing move). -/
theorem C7_resolver_failure {Pos : Type} (E : Engine Pos) (learn : Nat)
    (ts₁ : List (List Nat)) (bad : List Nat) (ts₂ : List (List Nat))
    (pos : Pos) (acc : List PolyEntry) (fixed : Nat)
    (hall : ResolvesAll E pos ts₁)
    (hbad : E.resolve (playAll E pos ts₁) bad = none) :
    parse_game E learn (ts₁ ++ bad :: ts₂) pos acc fixed =
      (acc ++ (parse_game E learn ts₁ pos [] 0).1,
       fixed + (parse_game E learn ts₁ pos [] 0).2.1 + 1,
       false) := by
  rw [parse_game_abandons E learn ts₁ bad ts₂ pos acc fixed hall hbad]
  rw [parse_game_shift E learn ts₁ pos acc fixed]

/-- C7 witness: with the concrete little engine, the game
`e <bad> e` stops at the unresolvable second token: only the first
move's entry is emitted, the error counter reads 1, the third token
is never replayed. -/
theorem C7_resolver_failure_witness :
    parse_game witEngine 7 [[101], [102], [101]] 0 [] 0 =
      ([(⟨0, 3, 1, 7⟩ : PolyEntry)], 1, false) :=
  C7_resolver_failure witEngine 7 [[101]] [102] [[101]] 0 [] 0
    (by refine ⟨?_, trivial⟩; simp [witEngine])
    (by simp [witEngine, playAll, stepPos])

/-- C8 counterexample: the 19-byte input `1.` followed by 17 opening
parentheses drives 17 pushes onto the 16-frame state stack (the 17th
write in the C code is past the end of `Step* stateStack[16]`; there
is no bounds check), and the parse finishes normally — no fatal parse
error is raised, contradicting the claim that such inputs terminate
with a fatal parse error instead of the out-of-bounds access. -/
theorem C8_overflow_counterexample :
    runOutMaxStack (parse_pgn (49 :: 46 :: List.replicate 17 40)) = some 17 := by decide

/-- C8 (amended): the stack is indeed never popped below empty — on
*every* input the parser never reaches the underflow access — but
pushes are unchecked: the same 17-parenthesis input pushes to depth
17, beyond the 16-frame capacity, and completes without any fatal
parse error. -/
theorem C8_stack_safety :
    (∀ input : List Nat, parse_pgn input ≠ .underflow) ∧
    runOutMaxStack (parse_pgn (49 :: 46 :: List.replicate 17 40)) = some 17 ∧
    parse_pgn (49 :: 46 :: List.replicate 17 40) ≠ .fail := by
  refine ⟨?_, by decide, by decide⟩
  intro input
  have hinv : PInv initCfg := ⟨fun hp => by simp [initCfg, poppable] at hp, trivial⟩
  have hnu := pgnLoop_no_underflow input input.length 0 initCfg hinv
  simp only [parse_pgn.eq_def]
  cases hrun : pgnLoop input input.length 0 initCfg with
  | fail => simp
  | underflow => exact absurd hrun hnu
  | done c =>
      show (if c.state ≠ .HEADER ∧ (c.sans ≠ [] ∨ c.cur ≠ []) then
          RunOut.done (flushGame c input input.length) else RunOut.done c) ≠ .underflow
      split <;> simp

/-- C8 witness: the no-underflow half applied to a concrete input
(a lone `[E` tag fragment). -/
theorem C8_stack_safety_witness : parse_pgn [91, 69] ≠ .underflow :=
  C8_stack_safety.1 [91, 69]

/-- C9: a corpus buffer in which one interior equal-key run holds
65536 identical (key, move) observations (all with weight 1, as the
replayer emits them).  `sort_by_frequency` stores the count 65536
into the 16-bit weight, wrapping to 0, and the written book then
contains a record with weight 0 — contradicting the claim (and the
`assert(e.weight)` in `write_poly_file`, which a release build skips). -/
theorem C9_weight_zero_record :
    (∀ e ∈ ((⟨0,9,1,0⟩ : PolyEntry) ::
        (List.replicate 65536 (⟨1,5,1,0⟩ : PolyEntry) ++ [(⟨2,6,1,0⟩ : PolyEntry)])),
      e.weight = 1) ∧
    process ((⟨0,9,1,0⟩ : PolyEntry) ::
        (List.replicate 65536 (⟨1,5,1,0⟩ : PolyEntry) ++ [(⟨2,6,1,0⟩ : PolyEntry)])) false =
      [(⟨1, 5, 0, 0⟩ : PolyEntry), ⟨2,6,1,0⟩] := by
  constructor
  · intro e he
    rcases List.mem_cons.mp he with h | h
    · rw [h]
    · rcases List.mem_append.mp h with h2 | h2
      · rw [List.eq_of_mem_replicate h2]
      · simp at h2
        rw [h2]
  · have h := process_block 65536 (by norm_num)
    norm_num at h
    exact h

/-- C10: on a book file of 16-byte records sorted ascending by key
and containing the probed key, `find_first` returns the byte offset
(a multiple of the record size) of the leftmost matching record. -/
theorem C10_find_first_leftmost (file : List Nat) (key : Nat)
    (hn : 0 < file.length / SizeOfPolyEntry)
    (hsorted : ∀ i j, i ≤ j → j < file.length / SizeOfPolyEntry →
      keyAt file i ≤ keyAt file j)
    (hex : ∃ i, i < file.length / SizeOfPolyEntry ∧ keyAt file i = key) :
    ∃ L, find_first file key = L * SizeOfPolyEntry ∧
      L < file.length / SizeOfPolyEntry ∧ keyAt file L = key ∧
      ∀ j, j < L → keyAt file j ≠ key := by
  have hL := Nat.find_spec hex
  have hmin : ∀ j, j < Nat.find hex → keyAt file j ≠ key := by
    intro j hj hkey
    exact (Nat.find_min hex hj) ⟨by omega, hkey⟩
  refine ⟨Nat.find hex, ?_, hL.1, hL.2, hmin⟩
  unfold find_first
  rw [findFirstLoop_eq file key (file.length / SizeOfPolyEntry) 0
    (file.length / SizeOfPolyEntry - 1) (Nat.find hex) (by omega) (Nat.zero_le _)
    (by omega) (fun i j hij hj => hsorted i j hij (by omega)) hL.2 hmin]

/-- C10 witness: a two-record book (keys 5 and 7); probing 7 finds the
second record at byte offset 16. -/
theorem C10_find_first_leftmost_witness :
    ∃ L, find_first
        [0,0,0,0,0,0,0,5, 0,1, 0,1, 0,0,0,0, 0,0,0,0,0,0,0,7, 0,2, 0,1, 0,0,0,0] 7 =
        L * SizeOfPolyEntry ∧
      L < [0,0,0,0,0,0,0,5, 0,1, 0,1, 0,0,0,0,
           0,0,0,0,0,0,0,7, 0,2, 0,1, 0,0,0,0].length / SizeOfPolyEntry ∧
      keyAt [0,0,0,0,0,0,0,5, 0,1, 0,1, 0,0,0,0,
             0,0,0,0,0,0,0,7, 0,2, 0,1, 0,0,0,0] L = 7 ∧
      ∀ j, j < L →
        keyAt [0,0,0,0,0,0,0,5, 0,1, 0,1, 0,0,0,0,
               0,0,0,0,0,0,0,7, 0,2, 0,1, 0,0,0,0] j ≠ 7 :=
  C10_find_first_leftmost _ 7 (by decide)
    (by
      intro i j hij hj
      have hj2 : j < 2 := by simpa [SizeOfPolyEntry] using hj
      interval_cases j <;> interval_cases i <;> decide)
    ⟨1, by decide⟩

end ChessDB
